import Mathlib

/-!
Verification of the chunk/span mapping engine and checker pipeline of a
spell-checking tool for source-code documentation.

The development shallowly embeds the Rust sources:
  * `src/documentation/chunk.rs` — `CheckableChunk` and `find_spans`;
  * `src/quirks.rs` — the quirk normalization chain;
  * `src/checker/hunspell.rs` — the hunspell checker's token loop and
    replacement filtering.

Machine integers (`usize`) are modelled as `Nat`: none of the embedded
operations can overflow 64 bits on inputs a real run can produce, and the
Rust code performs no wrapping arithmetic.  Text is modelled as `List Char`
(the spec mandates character indexing throughout); where the Rust code
measures UTF-8 byte lengths (`String::len`) the embedding computes the byte
length explicitly via `Char.utf8Size`.
-/

set_option autoImplicit false

namespace Spellcheck

/-! ## Data model -/

/-- Half-open character-index interval `[start, stop)`, the embedding of
`core::ops::Range<usize>`. -/
structure Range where
  start : Nat
  stop : Nat
deriving DecidableEq, Repr

/-- Embedding of `Range::len` (`ExactSizeIterator::len`): zero whenever
`stop ≤ start`, which `Nat` subtraction gives for free. -/
def Range.len (r : Range) : Nat := r.stop - r.start

/-- One-based line, zero-based column, the embedding of `LineColumn`. -/
structure LineColumn where
  line : Nat
  column : Nat
deriving DecidableEq, Repr

/-- Source-file span with inclusive `stop` position, the embedding of
`Span { start, end }`. -/
structure Span where
  start : LineColumn
  stop : LineColumn
deriving DecidableEq, Repr

/-- Embedding of `CheckableChunk`: reassembled content plus the ordered
fragment map (`IndexMap<Range, Span>` is kept as its insertion-ordered
association list). -/
structure CheckableChunk where
  content : List Char
  source_mapping : List (Range × Span)
deriving DecidableEq, Repr

/-! ## Quirks (`src/quirks.rs`) -/

/-- Embedding of `enum Quirk`. -/
inductive Quirk where
  | SingleQuoted
  | Quoted
  | MultipicityXsuffix
deriving DecidableEq, Repr

/-- UTF-8 byte length of a character sequence, the embedding of
`str::len` on the text's UTF-8 representation. -/
def byteLen (s : List Char) : Nat := (s.map Char.utf8Size).sum

/-- Embedding of `Quirk::call`.  The Rust code checks the UTF-8 byte length
(`text.len()`) and slices bytes; the byte slices `[1..len-1]` and
`[..len-1]` are taken only under guards that pin the sliced-off boundary
characters to one-byte ASCII, so they drop exactly one character each,
which `List.drop`/`List.dropLast` express. -/
def Quirk.call (q : Quirk) (text : List Char) : Option (List Char) :=
  match q with
  | .Quoted =>
      if 2 < byteLen text ∧ text.head? = some '"' ∧ text.getLast? = some '"' then
        some ((text.drop 1).dropLast)
      else
        none
  | .SingleQuoted =>
      if 2 < byteLen text ∧ text.head? = some '\'' ∧ text.getLast? = some '\'' then
        some ((text.drop 1).dropLast)
      else
        none
  | .MultipicityXsuffix =>
      if 1 < byteLen text ∧ text.getLast? = some 'x' then
        some text.dropLast
      else
        none

/-- Embedding of `Quirk::from_str`. -/
def Quirk.from_str (q : String) : Option Quirk :=
  if q = "single-quoted" then some .SingleQuoted
  else if q = "quoted" then some .Quoted
  else if q = "multipicity-x-suffix" then some .MultipicityXsuffix
  else none

namespace Quirks

/-- One iteration of the `while let` loop of `Quirks::check_quirk`: the
first configured quirk whose predicate matches is applied. -/
def quirkStep (qs : List Quirk) (t : List Char) : Option (List Char) :=
  match qs.find? (fun q => (Quirk.call q t).isSome) with
  | some q => Quirk.call q t
  | none => none

/-- The `while let` loop of `Quirks::check_quirk`, embedded with fuel.
`check_quirk` supplies fuel `t.length + 1`, which is proved sufficient:
every applied quirk strictly shrinks the text, so the zero-fuel branch is
unreachable from that entry point. -/
def reduceGo (fuel : Nat) (qs : List Quirk) (t : List Char) : List Char :=
  match fuel with
  | 0 => t
  | fuel + 1 =>
    match quirkStep qs t with
    | some t2 => reduceGo fuel qs t2
    | none => t

/-- The fully reduced text computed by the loop of `Quirks::check_quirk`. -/
def reduceQuirks (qs : List Quirk) (t : List Char) : List Char :=
  reduceGo (t.length + 1) qs t

/-- Embedding of `Quirks::check_quirk`: `found_one` is true exactly when
the first loop iteration finds a matching quirk. -/
def check_quirk (qs : List Quirk) (text : List Char) : Option (List Char) :=
  if (quirkStep qs text).isSome then some (reduceQuirks qs text) else none

/-- Embedding of `Vec::dedup_by(|a, b| a == b)`: collapse runs of equal
consecutive elements to their first element. -/
def dedupAdjacent (l : List Quirk) : List Quirk :=
  match l with
  | [] => []
  | a :: rest => a :: go a rest
where
  /-- Walk the tail remembering the last retained element. -/
  go (prev : Quirk) : List Quirk → List Quirk
  | [] => []
  | b :: rest => if prev = b then go prev rest else b :: go b rest

/-- Embedding of `Quirks::quirks`: parse each configured name, drop the
unparseable ones (`flatten` on `Option`), then `dedup_by` equality. -/
def quirks (qs : List String) : List Quirk :=
  dedupAdjacent (qs.filterMap Quirk.from_str)

end Quirks

/-! ## Chunk fragment resolution (`src/documentation/chunk.rs`) -/

/-- Modelled from the spec: `util::sub_chars` slices a text by a
character-index range (`util.rs` is not among the embedded source files;
the spec fixes that all indexing is by character, not byte). -/
def sub_chars (s : List Char) (r : Range) : List Char :=
  (s.drop r.start).take r.len

/-- Embedding of the cursor update inside the replay loop of `find_spans`:
a newline increments the line and resets the column to zero, any other
character increments the column. -/
def advance (lc : LineColumn) (c : Char) : LineColumn :=
  if c = '\n' then { line := lc.line + 1, column := 0 }
  else { line := lc.line, column := lc.column + 1 }

/-- Running cursor of the replay: the position reached after consuming the
first `i` characters of `s` starting from `lc`. -/
def posFrom (lc : LineColumn) (s : List Char) (i : Nat) : LineColumn :=
  (s.take i).foldl advance lc

/-- Embedding of the `scan`/`for` replay loop of `find_spans`: `state` is
the scan state (the cursor BEFORE consuming the current character), `idx`
the current character index, `shift` and `lastIdx` the loop constants
(`lastIdx` embeds `sub_fragment_range.len() + shift - 1`), and `acc` the
span under construction (`sub_fragment_span`, initialized to the whole
fragment span).  The span start is set at index `shift`, the span stop at
every index, and the loop breaks after processing index `lastIdx`. -/
def replayLoop (state : LineColumn) (s : List Char) (idx shift lastIdx : Nat)
    (acc : Span) : Span :=
  match s with
  | [] => acc
  | c :: rest =>
    let cursor := state
    let acc1 := if idx = shift then { acc with start := cursor } else acc
    let acc2 := { acc1 with stop := cursor }
    if lastIdx ≤ idx then acc2
    else replayLoop (advance state c) rest (idx + 1) shift lastIdx acc2

/-- The `filter_map` closure of `find_spans` (the body from the
`sub_fragment_range` trimming down to the replay), applied to one
surviving fragment pair. -/
def fragmentSubSpan (content : List Char) (range : Range) (p : Range × Span) :
    Option (Range × Span) :=
  let fragment_range := p.1
  let fragment_span := p.2
  let sub_fragment_range : Range :=
    { start := max fragment_range.start range.start,
      stop := min fragment_range.stop range.stop }
  if sub_fragment_range.len = 0 then none
  else
    let s := sub_chars content fragment_range
    let shift := sub_fragment_range.start - fragment_range.start
    some (sub_fragment_range,
      replayLoop fragment_span.start s 0 shift
        (sub_fragment_range.len + shift - 1) fragment_span)

/-- Embedding of `CheckableChunk::find_spans` under release semantics: the
`debug_assert_eq!` guards are no-ops that do not affect the returned
value, and the trace logging is omitted.  The returned `IndexMap` is kept
as its insertion-ordered pair list; on fragment maps meeting the spec's
ordering invariants the produced sub-ranges are pairwise distinct, so the
`collect` can never merge keys. -/
def CheckableChunk.find_spans (chunk : CheckableChunk) (range : Range) :
    List (Range × Span) :=
  (((chunk.source_mapping.dropWhile
      (fun p => decide (p.1.stop ≤ range.start))).takeWhile
      (fun p => decide (range.stop ≤ p.1.stop))).filter
      (fun p => decide (0 < p.1.len))).filterMap
    (fragmentSubSpan chunk.content range)

/-! ## Equality and hashing of chunks -/

/-- Embedding of `IndexMap::get` on the association-list model. -/
def indexMapGet (m : List (Range × Span)) (k : Range) : Option Span :=
  (m.find? (fun p => decide (p.1 = k))).map (fun p => p.2)

/-- Models the `PartialEq` implementation of the external `indexmap` crate
as used by the derived `PartialEq` of `CheckableChunk`: two maps compare
equal when they have the same length and every key of the first maps to an
equal value in the second.  Insertion order is NOT compared. -/
def indexMapEq (m1 m2 : List (Range × Span)) : Bool :=
  decide (m1.length = m2.length) &&
    m1.all (fun p => decide (indexMapGet m2 p.1 = some p.2))

/-- Embedding of the derived `PartialEq for CheckableChunk`. -/
def chunkEq (a b : CheckableChunk) : Bool :=
  decide (a.content = b.content) && indexMapEq a.source_mapping b.source_mapping

/-- Embedding of the custom `Hash for CheckableChunk`: the data fed to the
hasher is the content followed by every `(Range, Span)` pair in stored
iteration order.  A fixed hasher is guaranteed to produce equal hash
values exactly for equal traces, so a trace mismatch between `==`-equal
values breaks the `Eq`/`Hash` contract. -/
def hashTrace (a : CheckableChunk) : List Char × List (Range × Span) :=
  (a.content, a.source_mapping)

/-! ## Source re-extraction (modelled from the spec) -/

/-- Lexicographic order on cursor positions (strict). -/
def lcLT (a b : LineColumn) : Prop :=
  a.line < b.line ∨ (a.line = b.line ∧ a.column < b.column)

/-- Lexicographic order on cursor positions (reflexive). -/
def lcLE (a b : LineColumn) : Prop :=
  a.line < b.line ∨ (a.line = b.line ∧ a.column ≤ b.column)

instance (a b : LineColumn) : Decidable (lcLT a b) := by
  unfold lcLT
  exact inferInstance

instance (a b : LineColumn) : Decidable (lcLE a b) := by
  unfold lcLE
  exact inferInstance

/-- Modelled from the spec: re-extraction of the source text addressed by
a `Span` (the helper `load_span_from` used by the repository's tests is
outside the embedded files).  The source is walked with the same cursor
discipline as the replay loop, collecting every character whose position
lies between the span's start and stop, both inclusive — spans carry
inclusive end positions. -/
def extractFrom (lc : LineColumn) (src : List Char) (sp : Span) : List Char :=
  match src with
  | [] => []
  | c :: rest =>
    let tail := extractFrom (advance lc c) rest sp
    if lcLE sp.start lc ∧ lcLE lc sp.stop then c :: tail else tail

/-! ## Hunspell checker (`src/checker/hunspell.rs`) -/

/-- Embedding of the replacement filter of `HunspellChecker::check`:
`hunspell.suggest(&word).into_iter().filter(|x| x.len() > 1)`.  Rust's
`String::len` is the UTF-8 byte length, hence the filter on `byteLen`. -/
def filterReplacements (rs : List (List Char)) : List (List Char) :=
  rs.filter (fun r => decide (1 < byteLen r))

/-- Embedding of a `Suggestion` as built by the hunspell checker; the
fields that no claim mentions (origin, detector tag, description, the
chunk back-reference) are omitted. -/
structure Suggestion where
  range : Range
  span : Span
  replacements : List (List Char)
deriving DecidableEq, Repr

/-- Embedding of the per-token suggestion emission of
`HunspellChecker::check`: the external hunspell backend is abstracted as a
membership check and a suggestion function; on a dictionary miss for the
quirk-trimmed word, one Suggestion per resolved span of the ORIGINAL
word's range is emitted, each carrying the filtered replacement list. -/
def suggestionsForWord (dictCheck : List Char → Bool)
    (dictSuggest : List Char → List (List Char)) (plain : CheckableChunk)
    (tokenRange : Range) (trimmedWord word : List Char) : List Suggestion :=
  if dictCheck trimmedWord then []
  else
    (plain.find_spans tokenRange).map
      (fun p =>
        { range := p.1, span := p.2,
          replacements := filterReplacements (dictSuggest word) })

/-- Embedding of the per-token quirk application of
`HunspellChecker::check`:
`quirks.unwrap().check_quirk(&word).map_or(word, |w| w)`.  The `unwrap`
panics when `quirks` is `None`; the panic is modelled as `none`. -/
def trimToken (quirks : Option (List Quirk)) (word : List Char) :
    Option (List Char) :=
  match quirks with
  | none => none
  | some qs =>
    some (match Quirks.check_quirk qs word with
          | some w => w
          | none => word)

/-- Embedding of the token loop of `HunspellChecker::check` over the words
tokenized from one chunk (the tokenizer is an external collaborator; its
output word list is taken as the parameter): the loop panics — modelled as
`none` — as soon as any token is processed with `quirks = None`. -/
def processTokens (quirks : Option (List Quirk)) (words : List (List Char)) :
    Option (List (List Char)) :=
  match words with
  | [] => some []
  | w :: rest =>
    match trimToken quirks w with
    | none => none
    | some t =>
      match processTokens quirks rest with
      | none => none
      | some ts => some (t :: ts)

/-! ## Concrete instances used by the counterexamples and scenarios -/

/-- The spec's scenario unit: content `" xyz"` with one leading join
character, whose single fragment `1..4` maps to the source span
`(1,4)..(1,6)` (the source text `xyz` of a `/// xyz` line). -/
def scenarioChunk : CheckableChunk :=
  { content := " xyz".toList,
    source_mapping := [(⟨1, 4⟩, ⟨⟨1, 4⟩, ⟨1, 6⟩⟩)] }

/-- Two-fragment chunk exercising a join boundary: content `ab cd`, the
first fragment at `0..2`, the second at `3..5`, one join character in the
gap between them. -/
def boundaryChunk : CheckableChunk :=
  { content := "ab cd".toList,
    source_mapping :=
      [(⟨0, 2⟩, ⟨⟨1, 0⟩, ⟨1, 1⟩⟩), (⟨3, 5⟩, ⟨⟨2, 0⟩, ⟨2, 1⟩⟩)] }

/-- Single-fragment chunk for the monotonicity counterexample: content
`abc` entirely covered by one fragment `0..3`. -/
def monotoneChunk : CheckableChunk :=
  { content := "abc".toList,
    source_mapping := [(⟨0, 3⟩, ⟨⟨1, 0⟩, ⟨1, 2⟩⟩)] }

/-- Chunk holding two fragments in one stored order. -/
def permChunkA : CheckableChunk :=
  { content := "ab".toList,
    source_mapping :=
      [(⟨0, 1⟩, ⟨⟨1, 0⟩, ⟨1, 0⟩⟩), (⟨1, 2⟩, ⟨⟨2, 0⟩, ⟨2, 0⟩⟩)] }

/-- The same content and the same two fragment pairs as `permChunkA`, but
stored in the opposite insertion order. -/
def permChunkB : CheckableChunk :=
  { content := "ab".toList,
    source_mapping :=
      [(⟨1, 2⟩, ⟨⟨2, 0⟩, ⟨2, 0⟩⟩), (⟨0, 1⟩, ⟨⟨1, 0⟩, ⟨1, 0⟩⟩)] }

/-! ## Facts about the quirk transforms (C6, C7, C8) -/

theorem Quirk.call_length_lt (q : Quirk) (t t2 : List Char)
    (h : Quirk.call q t = some t2) : t2.length < t.length := by
  cases q <;> simp only [Quirk.call] at h <;> split at h <;>
      simp only [Option.some.injEq, reduceCtorEq] at h
  case Quoted.isTrue hc =>
    subst h
    have h1 : 0 < t.length := by
      cases t with
      | nil => simp at hc
      | cons a l => simp
    simp only [List.length_dropLast, List.length_drop]
    omega
  case SingleQuoted.isTrue hc =>
    subst h
    have h1 : 0 < t.length := by
      cases t with
      | nil => simp at hc
      | cons a l => simp
    simp only [List.length_dropLast, List.length_drop]
    omega
  case MultipicityXsuffix.isTrue hc =>
    subst h
    have h1 : 0 < t.length := by
      cases t with
      | nil => simp at hc
      | cons a l => simp
    simp only [List.length_dropLast]
    omega

theorem Quirks.quirkStep_length_lt (qs : List Quirk) (t t2 : List Char)
    (h : Quirks.quirkStep qs t = some t2) : t2.length < t.length := by
  unfold Quirks.quirkStep at h
  split at h
  case h_1 q hq => exact Quirk.call_length_lt q t t2 h
  case h_2 => cases h

theorem Quirks.reduceGo_fixpoint (fuel : Nat) :
    ∀ (qs : List Quirk) (t : List Char), t.length < fuel →
      Quirks.quirkStep qs (Quirks.reduceGo fuel qs t) = none := by
  induction fuel with
  | zero =>
    intro qs t h
    omega
  | succ fuel ih =>
    intro qs t h
    cases hs : Quirks.quirkStep qs t with
    | none =>
      simp only [Quirks.reduceGo, hs]
    | some t2 =>
      have hlt := Quirks.quirkStep_length_lt qs t t2 hs
      simpa only [Quirks.reduceGo, hs] using ih qs t2 (by omega)

theorem Quirks.quirkStep_reduceQuirks (qs : List Quirk) (t : List Char) :
    Quirks.quirkStep qs (Quirks.reduceQuirks qs t) = none :=
  Quirks.reduceGo_fixpoint (t.length + 1) qs t (Nat.lt_succ_self _)

/-- Claim C6: every quirk transform, when its predicate matches, returns a
strictly shorter text, and consequently the repeated-application loop of
`check_quirk` reaches — for every configured quirk list and every input —
a text that no configured transform matches (the loop terminates at a
fixpoint; the fuel `t.length + 1` used by the embedding is never
exhausted). -/
theorem quirk_chain_terminates :
    (∀ (q : Quirk) (t t2 : List Char),
        Quirk.call q t = some t2 → t2.length < t.length) ∧
    (∀ (qs : List Quirk) (t : List Char),
        Quirks.quirkStep qs (Quirks.reduceQuirks qs t) = none) :=
  ⟨Quirk.call_length_lt, Quirks.quirkStep_reduceQuirks⟩

/-- Witness for C6 at the concrete transform `Quoted` on the token `ab`
surrounded by double quotes. -/
theorem quirk_chain_terminates_witness :
    Quirk.call Quirk.Quoted ("\"ab\"".toList) = some ("ab".toList) ∧
    ("ab".toList).length < ("\"ab\"".toList).length ∧
    Quirks.quirkStep [Quirk.Quoted]
      (Quirks.reduceQuirks [Quirk.Quoted] ("\"ab\"".toList)) = none :=
  ⟨by decide,
   quirk_chain_terminates.1 Quirk.Quoted ("\"ab\"".toList) ("ab".toList) (by decide),
   quirk_chain_terminates.2 [Quirk.Quoted] ("\"ab\"".toList)⟩

/-- Claim C7: the quirk chain is idempotent — whenever `check_quirk`
returns `some t2`, running `check_quirk` on `t2` returns `none` (the
output is maximally reduced), and `check_quirk` returns `none` exactly
when no configured transform matches the input (equivalently: the very
first loop iteration already finds no match, so no transform ever
matched). -/
theorem check_quirk_idempotent :
    (∀ (qs : List Quirk) (t t2 : List Char),
        Quirks.check_quirk qs t = some t2 → Quirks.check_quirk qs t2 = none) ∧
    (∀ (qs : List Quirk) (t : List Char),
        Quirks.check_quirk qs t = none ↔ Quirks.quirkStep qs t = none) := by
  constructor
  · intro qs t t2 h
    unfold Quirks.check_quirk at h ⊢
    split at h
    case isTrue hs =>
      have ht2 : t2 = Quirks.reduceQuirks qs t := by
        simpa using h.symm
      rw [ht2, Quirks.quirkStep_reduceQuirks qs t]
      simp
    case isFalse hs => cases h
  · intro qs t
    unfold Quirks.check_quirk
    split
    case isTrue hs =>
      constructor
      · intro h
        simp at h
      · intro h
        rw [h] at hs
        simp at hs
    case isFalse hs =>
      simpa using Option.not_isSome_iff_eq_none.mp hs

/-- Witness for C7: with the quirk list `[Quoted]`, the doubly quoted
token reduces to `ab`, and re-running the chain on `ab` yields `none`. -/
theorem check_quirk_idempotent_witness :
    Quirks.check_quirk [Quirk.Quoted] ("\"ab\"".toList) = some ("ab".toList) ∧
    Quirks.check_quirk [Quirk.Quoted] ("ab".toList) = none :=
  ⟨by decide,
   check_quirk_idempotent.1 [Quirk.Quoted] ("\"ab\"".toList) ("ab".toList) (by decide)⟩

theorem Quirks.dedupAdjacent_go_chain (l : List Quirk) :
    ∀ prev : Quirk,
      List.Chain' (fun a b => a ≠ b) (prev :: Quirks.dedupAdjacent.go prev l) := by
  induction l with
  | nil =>
    intro prev
    simp [Quirks.dedupAdjacent.go]
  | cons b rest ih =>
    intro prev
    by_cases hb : prev = b
    · simpa [Quirks.dedupAdjacent.go, hb] using ih prev
    · simp only [Quirks.dedupAdjacent.go, if_neg hb]
      exact List.chain'_cons.mpr ⟨hb, ih b⟩

/-- Counterexample for C8 as stated: with the configured name list
`["quoted", "single-quoted", "quoted"]` the resulting transform list
contains `Quoted` twice, because `dedup_by` only collapses *adjacent*
duplicates. -/
theorem quirks_config_cex :
    ¬ ((Quirks.quirks ["quoted", "single-quoted", "quoted"]).count Quirk.Quoted ≤ 1) := by
  decide

/-- Claim C8 (amended): unknown transform names are silently dropped when
building the quirk list (never an error), and only *consecutive* duplicate
transforms are collapsed — the result never holds two equal adjacent
transforms, while equal transforms separated by a different one are all
retained. -/
theorem quirks_config_amended :
    (∀ (xs ys : List String) (n : String), Quirk.from_str n = none →
        Quirks.quirks (xs ++ n :: ys) = Quirks.quirks (xs ++ ys)) ∧
    (∀ l : List String, List.Chain' (fun a b => a ≠ b) (Quirks.quirks l)) := by
  constructor
  · intro xs ys n hn
    simp [Quirks.quirks, List.filterMap_append, List.filterMap_cons, hn]
  · intro l
    unfold Quirks.quirks
    cases hl : (l.filterMap Quirk.from_str) with
    | nil => simp [Quirks.dedupAdjacent]
    | cons a rest =>
      have hc := Quirks.dedupAdjacent_go_chain rest a
      simpa only [Quirks.dedupAdjacent] using hc

/-- Witness for C8 (amended) at the concrete unknown name `bogus` and a
name list with non-adjacent duplicates. -/
theorem quirks_config_amended_witness :
    Quirk.from_str ("bogus") = none ∧
    Quirks.quirks (["quoted"] ++ "bogus" :: ["single-quoted"]) =
      Quirks.quirks (["quoted"] ++ ["single-quoted"]) ∧
    List.Chain' (fun a b => a ≠ b)
      (Quirks.quirks ["quoted", "single-quoted", "quoted"]) :=
  ⟨by decide,
   quirks_config_amended.1 ["quoted"] ["single-quoted"] ("bogus") (by decide),
   quirks_config_amended.2 ["quoted", "single-quoted", "quoted"]⟩

/-! ## Boundary and monotonicity behavior of `find_spans` (C1, C3) -/

/-- Claim C1 (code bug): a query that overlaps both fragments of
`boundaryChunk` — it spans the join boundary — is answered with the EMPTY
map, not with one pair per overlapped fragment: the scan's `take_while`
keeps a fragment only when the whole query end fits inside it, so the
first overlapped fragment already stops the scan.  This contradicts the
claim and the worked example in the documentation comment of `find_spans`
itself.  The first conjunct records that exactly two stored fragments
overlap the query `1..4`. -/
theorem find_spans_boundary_empty :
    (boundaryChunk.source_mapping.filter
        (fun p => decide (p.1.start < 4 ∧ 1 < p.1.stop))).length = 2 ∧
    boundaryChunk.find_spans ⟨1, 4⟩ = [] := by
  decide

/-- Claim C3 (code bug): enlarging the query `0..2` — answered with one
pair — to `0..4` makes `find_spans` return NOTHING on the same chunk: the
entry covering the unchanged portion `0..2` is removed, refuting coverage
monotonicity for the code as written. -/
theorem find_spans_not_monotone :
    monotoneChunk.find_spans ⟨0, 2⟩ = [(⟨0, 2⟩, ⟨⟨1, 0⟩, ⟨1, 1⟩⟩)] ∧
    monotoneChunk.find_spans ⟨0, 4⟩ = [] := by
  decide

/-! ## Equality versus hashing (C5) -/

/-- Claim C5 (code bug): two chunks holding the same content and the same
`(Range, Span)` pairs in DIFFERENT stored orders are equal under the
derived `PartialEq` — the `indexmap` equality ignores insertion order —
yet the custom `Hash` feeds the hasher the pairs in the differing stored
orders, so the two equal values are not guaranteed equal hashes.  This
refutes both halves of the claim (equality is NOT order-sensitive, and
equal units need not hash identically) and violates the `Hash`/`Eq`
contract documented by the standard library. -/
theorem chunk_eq_hash_mismatch :
    chunkEq permChunkA permChunkB = true ∧
    permChunkA.source_mapping ≠ permChunkB.source_mapping ∧
    hashTrace permChunkA ≠ hashTrace permChunkB := by
  decide

/-! ## Replacement filtering and the quirks unwrap (C9, C10) -/

/-- Claim C9 (code bug): the replacement filter measures UTF-8 bytes
(`String::len`), not characters, so the single-character candidate `é`
(two bytes) survives the filter, and a Suggestion emitted for a misspelled
token carries it — contradicting the claim and the code's own comment
"get rid of single character suggestions". -/
theorem replacements_single_char_kept :
    filterReplacements [['é'], ['a']] = [['é']] ∧
    (['é'] : List Char).length = 1 ∧
    suggestionsForWord (fun _ => false) (fun _ => [['é'], ['a']])
        scenarioChunk ⟨1, 4⟩ ("xyz".toList) ("xyz".toList) =
      [{ range := ⟨1, 4⟩, span := ⟨⟨1, 4⟩, ⟨1, 6⟩⟩, replacements := [['é']] }] := by
  decide

/-- Claim C10: `HunspellChecker::check` unconditionally unwraps its
`Option<&Quirks>` argument for every tokenized word, so with `quirks =
None` the token loop panics — modelled as `none` — exactly when at least
one word was tokenized, while passing `Some` quirks never panics. -/
theorem check_none_quirks_panics :
    (∀ words : List (List Char),
        processTokens none words = none ↔ words ≠ []) ∧
    (∀ (qs : List Quirk) (words : List (List Char)),
        (processTokens (some qs) words).isSome) := by
  constructor
  · intro words
    cases words with
    | nil => simp [processTokens]
    | cons w rest => simp [processTokens, trimToken]
  · intro qs words
    induction words with
    | nil => simp [processTokens]
    | cons w rest ih =>
      simp only [processTokens, trimToken]
      cases hr : processTokens (some qs) rest with
      | none => rw [hr] at ih; simp at ih
      | some ts => simp

/-! ## Cursor arithmetic -/

theorem posFrom_zero (lc : LineColumn) (s : List Char) : posFrom lc s 0 = lc := rfl

theorem posFrom_cons (lc : LineColumn) (c : Char) (rest : List Char) (i : Nat) :
    posFrom lc (c :: rest) (i + 1) = posFrom (advance lc c) rest i := rfl

theorem posFrom_succ (lc : LineColumn) (s : List Char) (i : Nat) (h : i < s.length) :
    posFrom lc s (i + 1) = advance (posFrom lc s i) s[i] := by
  unfold posFrom
  rw [← List.take_concat_get' s i h, List.foldl_append]
  rfl

theorem lcLE_refl (a : LineColumn) : lcLE a a := by
  unfold lcLE
  omega

theorem lcLE_trans (a b c : LineColumn) (h1 : lcLE a b) (h2 : lcLE b c) : lcLE a c := by
  unfold lcLE at *
  omega

theorem lcLE_of_lcLT (a b : LineColumn) (h : lcLT a b) : lcLE a b := by
  unfold lcLT at h
  unfold lcLE
  omega

theorem lcLT_lcLE_trans (a b c : LineColumn) (h1 : lcLT a b) (h2 : lcLE b c) : lcLT a c := by
  unfold lcLT at *
  unfold lcLE at h2
  omega

theorem lcLT_trans (a b c : LineColumn) (h1 : lcLT a b) (h2 : lcLT b c) : lcLT a c :=
  lcLT_lcLE_trans a b c h1 (lcLE_of_lcLT b c h2)

theorem lcLT_not_le (a b : LineColumn) (h : lcLT a b) : ¬ lcLE b a := by
  unfold lcLT at h
  unfold lcLE
  omega

theorem lcLT_advance (lc : LineColumn) (c : Char) : lcLT lc (advance lc c) := by
  unfold advance
  split <;> (unfold lcLT; simp)

theorem lcLE_foldl (l : List Char) : ∀ lc : LineColumn, lcLE lc (l.foldl advance lc) := by
  induction l with
  | nil =>
    intro lc
    exact lcLE_refl lc
  | cons c rest ih =>
    intro lc
    exact lcLE_trans _ _ _ (lcLE_of_lcLT _ _ (lcLT_advance lc c)) (ih (advance lc c))

theorem posFrom_mono (lc : LineColumn) (s : List Char) (i j : Nat) (h : i ≤ j) :
    lcLE (posFrom lc s i) (posFrom lc s j) := by
  have h2 : s.take j = (s.take j).take i ++ (s.take j).drop i :=
    (List.take_append_drop i (s.take j)).symm
  have h3 : (s.take j).foldl advance lc =
      ((s.take j).drop i).foldl advance ((s.take i).foldl advance lc) := by
    conv_lhs => rw [h2]
    rw [List.foldl_append, List.take_take, min_eq_left h]
  unfold posFrom
  rw [h3]
  exact lcLE_foldl _ _

theorem posFrom_strict (lc : LineColumn) (s : List Char) (i j : Nat) (hij : i < j)
    (hj : j ≤ s.length) : lcLT (posFrom lc s i) (posFrom lc s j) := by
  have h1 : lcLT (posFrom lc s i) (posFrom lc s (i + 1)) := by
    rw [posFrom_succ lc s i (by omega)]
    exact lcLT_advance _ _
  exact lcLT_lcLE_trans _ _ _ h1 (posFrom_mono lc s (i + 1) j hij)

/-! ## Replay-loop characterization -/

theorem replayLoop_start_const (s : List Char) :
    ∀ (state : LineColumn) (idx shift lastIdx : Nat) (acc : Span), shift < idx →
      (replayLoop state s idx shift lastIdx acc).start = acc.start := by
  induction s with
  | nil =>
    intro state idx shift lastIdx acc h
    rfl
  | cons c rest ih =>
    intro state idx shift lastIdx acc h
    simp only [replayLoop, if_neg (by omega : ¬ idx = shift)]
    split
    · rfl
    · exact ih (advance state c) (idx + 1) shift lastIdx _ (by omega)

theorem replayLoop_start (s : List Char) :
    ∀ (state : LineColumn) (idx shift lastIdx : Nat) (acc : Span),
      idx ≤ shift → shift ≤ lastIdx → lastIdx < idx + s.length →
      (replayLoop state s idx shift lastIdx acc).start = posFrom state s (shift - idx) := by
  induction s with
  | nil =>
    intro state idx shift lastIdx acc h1 h2 h3
    simp only [List.length_nil] at h3
    omega
  | cons c rest ih =>
    intro state idx shift lastIdx acc h1 h2 h3
    rcases Nat.eq_or_lt_of_le h1 with heq | hlt
    · subst heq
      simp only [replayLoop, if_pos rfl, Nat.sub_self, posFrom_zero]
      split
      · rfl
      · exact replayLoop_start_const rest (advance state c) (idx + 1) idx lastIdx _ (by omega)
    · simp only [replayLoop, if_neg (by omega : ¬ idx = shift)]
      rw [if_neg (by omega : ¬ lastIdx ≤ idx)]
      rw [ih (advance state c) (idx + 1) shift lastIdx _ hlt h2 (by simp at h3 ⊢; omega)]
      have hs : shift - idx = (shift - (idx + 1)) + 1 := by omega
      rw [hs, posFrom_cons]

theorem replayLoop_stop (s : List Char) :
    ∀ (state : LineColumn) (idx shift lastIdx : Nat) (acc : Span),
      idx ≤ lastIdx → lastIdx < idx + s.length →
      (replayLoop state s idx shift lastIdx acc).stop = posFrom state s (lastIdx - idx) := by
  induction s with
  | nil =>
    intro state idx shift lastIdx acc h1 h2
    simp only [List.length_nil] at h2
    omega
  | cons c rest ih =>
    intro state idx shift lastIdx acc h1 h2
    rcases Nat.eq_or_lt_of_le h1 with heq | hlt
    · subst heq
      simp only [replayLoop, if_pos (le_refl idx), Nat.sub_self, posFrom_zero]
    · simp only [replayLoop]
      rw [if_neg (by omega : ¬ lastIdx ≤ idx)]
      rw [ih (advance state c) (idx + 1) shift lastIdx _ hlt (by simp at h2 ⊢; omega)]
      have hs : lastIdx - idx = (lastIdx - (idx + 1)) + 1 := by omega
      rw [hs, posFrom_cons]

/-! ## Source re-extraction characterization -/

theorem extractFrom_nil_of_stop_lt (src : List Char) :
    ∀ (lc : LineColumn) (sp : Span), lcLT sp.stop lc → extractFrom lc src sp = [] := by
  induction src with
  | nil =>
    intro lc sp h
    rfl
  | cons c rest ih =>
    intro lc sp h
    simp only [extractFrom]
    rw [if_neg (fun hcc => lcLT_not_le _ _ h hcc.2)]
    exact ih (advance lc c) sp (lcLT_trans _ _ _ h (lcLT_advance lc c))

theorem extractFrom_take (src : List Char) :
    ∀ (lc : LineColumn) (sp : Span) (j : Nat), j < src.length →
      lcLE sp.start lc → sp.stop = posFrom lc src j →
      extractFrom lc src sp = src.take (j + 1) := by
  induction src with
  | nil =>
    intro lc sp j hj
    simp at hj
  | cons c rest ih =>
    intro lc sp j hj hstart hstop
    have hle : lcLE lc sp.stop := by
      rw [hstop]
      exact posFrom_mono lc (c :: rest) 0 j (Nat.zero_le j)
    simp only [extractFrom]
    rw [if_pos ⟨hstart, hle⟩]
    cases j with
    | zero =>
      have hstoplt : lcLT sp.stop (advance lc c) := by
        rw [hstop]
        exact lcLT_advance lc c
      rw [extractFrom_nil_of_stop_lt rest (advance lc c) sp hstoplt]
      rfl
    | succ j2 =>
      have hrec := ih (advance lc c) sp j2 (by simpa using hj)
        (lcLE_trans _ _ _ hstart (lcLE_of_lcLT _ _ (lcLT_advance lc c)))
        (by rw [hstop]; exact posFrom_cons lc c rest j2)
      rw [hrec]
      rfl

theorem extractFrom_slice (src : List Char) :
    ∀ (lc : LineColumn) (sp : Span) (i j : Nat), i ≤ j → j < src.length →
      sp.start = posFrom lc src i → sp.stop = posFrom lc src j →
      extractFrom lc src sp = (src.drop i).take (j + 1 - i) := by
  induction src with
  | nil =>
    intro lc sp i j hij hj
    simp at hj
  | cons c rest ih =>
    intro lc sp i j hij hj hstart hstop
    cases i with
    | zero =>
      rw [extractFrom_take (c :: rest) lc sp j hj (by rw [hstart]; exact lcLE_refl lc) hstop]
      simp
    | succ i2 =>
      cases j with
      | zero => omega
      | succ j2 =>
        have hlt : lcLT lc sp.start := by
          rw [hstart]
          exact posFrom_strict lc (c :: rest) 0 (i2 + 1) (by omega) (by omega)
        simp only [extractFrom]
        rw [if_neg (fun hcc => lcLT_not_le _ _ hlt hcc.1)]
        rw [ih (advance lc c) sp i2 j2 (by omega) (by simpa using hj)
          (by rw [hstart]; exact posFrom_cons lc c rest i2)
          (by rw [hstop]; exact posFrom_cons lc c rest j2)]
        have harith : j2 + 1 - i2 = j2 + 1 + 1 - (i2 + 1) := by omega
        rw [harith]
        rfl

/-! ## Resolution of a query lying inside a single fragment -/

theorem sub_chars_length (content : List Char) (fr : Range) (hcov : fr.stop ≤ content.length) :
    (sub_chars content fr).length = fr.stop - fr.start := by
  unfold sub_chars Range.len
  simp only [List.length_take, List.length_drop]
  omega

theorem fragmentSubSpan_after (content : List Char) (q : Range) (p : Range × Span)
    (h : q.stop ≤ p.1.start) : fragmentSubSpan content q p = none := by
  have hz : ({ start := max p.1.start q.start, stop := min p.1.stop q.stop } : Range).len = 0 := by
    simp only [Range.len]
    omega
  simp only [fragmentSubSpan]
  rw [if_pos hz]

theorem fragmentSubSpan_pivot (content : List Char) (fr : Range) (fsp : Span) (q : Range)
    (hq : q.start < q.stop) (hqs : fr.start ≤ q.start) (hqe : q.stop ≤ fr.stop)
    (hcov : fr.stop ≤ content.length) :
    fragmentSubSpan content q (fr, fsp) =
      some (q, { start := posFrom fsp.start (sub_chars content fr) (q.start - fr.start),
                 stop := posFrom fsp.start (sub_chars content fr)
                           (q.stop - q.start + (q.start - fr.start) - 1) }) := by
  have hslen : (sub_chars content fr).length = fr.stop - fr.start :=
    sub_chars_length content fr hcov
  have hmax : max fr.start q.start = q.start := by omega
  have hmin : min fr.stop q.stop = q.stop := by omega
  simp only [fragmentSubSpan, hmax, hmin]
  rw [if_neg (by simp only [Range.len]; omega)]
  have hstart := replayLoop_start (sub_chars content fr) fsp.start 0 (q.start - fr.start)
    (({ start := q.start, stop := q.stop } : Range).len + (q.start - fr.start) - 1) fsp
    (Nat.zero_le _) (by simp only [Range.len]; omega)
    (by simp only [Range.len]; rw [hslen]; omega)
  have hstop := replayLoop_stop (sub_chars content fr) fsp.start 0 (q.start - fr.start)
    (({ start := q.start, stop := q.stop } : Range).len + (q.start - fr.start) - 1) fsp
    (by simp only [Range.len]; omega)
    (by simp only [Range.len]; rw [hslen]; omega)
  have hR : replayLoop fsp.start (sub_chars content fr) 0 (q.start - fr.start)
      (({ start := q.start, stop := q.stop } : Range).len + (q.start - fr.start) - 1) fsp =
      { start := posFrom fsp.start (sub_chars content fr) (q.start - fr.start),
        stop := posFrom fsp.start (sub_chars content fr)
                  (q.stop - q.start + (q.start - fr.start) - 1) } := by
    rw [show replayLoop fsp.start (sub_chars content fr) 0 (q.start - fr.start)
        (({ start := q.start, stop := q.stop } : Range).len + (q.start - fr.start) - 1) fsp =
        { start := (replayLoop fsp.start (sub_chars content fr) 0 (q.start - fr.start)
            (({ start := q.start, stop := q.stop } : Range).len + (q.start - fr.start) - 1)
            fsp).start,
          stop := (replayLoop fsp.start (sub_chars content fr) 0 (q.start - fr.start)
            (({ start := q.start, stop := q.stop } : Range).len + (q.start - fr.start) - 1)
            fsp).stop } from rfl]
    rw [hstart, hstop]
    have e1 : q.start - fr.start - 0 = q.start - fr.start := by omega
    have e2 : ({ start := q.start, stop := q.stop } : Range).len + (q.start - fr.start) - 1 - 0 =
        q.stop - q.start + (q.start - fr.start) - 1 := by
      simp only [Range.len]
      omega
    rw [e1, e2]
  rw [hR]

theorem find_spans_single_core (content : List Char) (before after : List (Range × Span))
    (fr : Range) (fsp : Span) (q : Range)
    (hq : q.start < q.stop) (hqs : fr.start ≤ q.start) (hqe : q.stop ≤ fr.stop)
    (hcov : fr.stop ≤ content.length)
    (hb : ∀ p ∈ before, p.1.stop ≤ q.start)
    (ha : ∀ p ∈ after, q.stop ≤ p.1.start) :
    CheckableChunk.find_spans ⟨content, before ++ (fr, fsp) :: after⟩ q =
      [(q, { start := posFrom fsp.start (sub_chars content fr) (q.start - fr.start),
             stop := posFrom fsp.start (sub_chars content fr)
                       (q.stop - q.start + (q.start - fr.start) - 1) })] := by
  unfold CheckableChunk.find_spans
  have hdrop : List.dropWhile (fun p : Range × Span => decide (p.1.stop ≤ q.start))
      (before ++ (fr, fsp) :: after) = (fr, fsp) :: after := by
    rw [List.dropWhile_append_of_pos (by intro p hp; simpa using hb p hp)]
    rw [List.dropWhile_cons, if_neg (by simp only [decide_eq_true_eq]; omega)]
  have htail : List.filterMap (fragmentSubSpan content q)
      (List.filter (fun p : Range × Span => decide (0 < p.1.len))
        (List.takeWhile (fun p : Range × Span => decide (q.stop ≤ p.1.stop)) after)) = [] := by
    apply List.filterMap_eq_nil_iff.mpr
    intro p hp
    exact fragmentSubSpan_after content q p
      (ha p ((List.takeWhile_sublist _).mem (List.mem_of_mem_filter hp)))
  simp only
  rw [hdrop]
  rw [List.takeWhile_cons, if_pos (by simp only [decide_eq_true_eq]; omega)]
  rw [List.filter_cons, if_pos (by simp only [Range.len, decide_eq_true_eq]; omega)]
  rw [List.filterMap_cons]
  rw [fragmentSubSpan_pivot content fr fsp q hq hqs hqe hcov]
  rw [htail]

/-- Claim C2: for a query range `q` lying entirely inside a single
fragment `fr ↦ fsp` of the unit's fragment map (the surrounding fragments
respecting the stored ordering), `find_spans` returns EXACTLY ONE pair,
keyed by `q` itself, whose span — replayed from the fragment's span start
— re-extracts from the original source file exactly the characters at `q`
in the unit's content.  The source-side hypotheses state that the
fragment's text occurs contiguously in the source at the cursor position
`fsp.start`.  In particular, instantiated at the spec's scenario (content
`" xyz"`, fragment `1..4 ↦ (1,4)..(1,6)`, source line `/// xyz`, query
`1..4`), the single returned pair is `(1..4, (1,4)..(1,6))` — see the
witness. -/
theorem find_spans_single_fragment (content pre post source : List Char)
    (before after : List (Range × Span)) (fr : Range) (fsp : Span) (q : Range)
    (hq : q.start < q.stop) (hqs : fr.start ≤ q.start) (hqe : q.stop ≤ fr.stop)
    (hcov : fr.stop ≤ content.length)
    (hb : ∀ p ∈ before, p.1.stop ≤ q.start)
    (ha : ∀ p ∈ after, q.stop ≤ p.1.start)
    (hsrc : source = pre ++ sub_chars content fr ++ post)
    (hpre : pre.foldl advance ⟨1, 0⟩ = fsp.start) :
    CheckableChunk.find_spans ⟨content, before ++ (fr, fsp) :: after⟩ q =
      [(q, { start := posFrom fsp.start (sub_chars content fr) (q.start - fr.start),
             stop := posFrom fsp.start (sub_chars content fr)
                       (q.stop - q.start + (q.start - fr.start) - 1) })] ∧
    extractFrom ⟨1, 0⟩ source
        { start := posFrom fsp.start (sub_chars content fr) (q.start - fr.start),
          stop := posFrom fsp.start (sub_chars content fr)
                    (q.stop - q.start + (q.start - fr.start) - 1) } =
      sub_chars content q := by
  have hslen : (sub_chars content fr).length = fr.stop - fr.start :=
    sub_chars_length content fr hcov
  refine ⟨find_spans_single_core content before after fr fsp q hq hqs hqe hcov hb ha, ?_⟩
  have hposeq : ∀ k, k ≤ (sub_chars content fr).length →
      posFrom ⟨1, 0⟩ source (pre.length + k) = posFrom fsp.start (sub_chars content fr) k := by
    intro k hk
    unfold posFrom
    rw [hsrc, List.append_assoc, List.take_append, List.foldl_append, hpre]
    rw [List.take_append_of_le_length hk]
  have hlast : q.stop - q.start + (q.start - fr.start) - 1 = q.stop - fr.start - 1 := by
    omega
  rw [hlast]
  have hstarteq : posFrom fsp.start (sub_chars content fr) (q.start - fr.start) =
      posFrom ⟨1, 0⟩ source (pre.length + (q.start - fr.start)) :=
    (hposeq (q.start - fr.start) (by omega)).symm
  have hstopeq : posFrom fsp.start (sub_chars content fr) (q.stop - fr.start - 1) =
      posFrom ⟨1, 0⟩ source (pre.length + (q.stop - fr.start - 1)) :=
    (hposeq (q.stop - fr.start - 1) (by omega)).symm
  rw [hstarteq, hstopeq]
  have hsrclen : (pre.length + (q.stop - fr.start - 1)) < source.length := by
    rw [hsrc]
    simp only [List.length_append]
    omega
  rw [extractFrom_slice source ⟨1, 0⟩ _ (pre.length + (q.start - fr.start))
    (pre.length + (q.stop - fr.start - 1)) (by omega) hsrclen rfl rfl]
  have hdrops : source.drop (pre.length + (q.start - fr.start)) =
      (sub_chars content fr).drop (q.start - fr.start) ++ post := by
    rw [hsrc, List.append_assoc, List.drop_append]
    rw [List.drop_append_of_le_length (by omega)]
  rw [hdrops]
  have hqlen : pre.length + (q.stop - fr.start - 1) + 1 - (pre.length + (q.start - fr.start)) =
      q.stop - q.start := by
    omega
  rw [hqlen]
  rw [List.take_append_of_le_length (by simp only [List.length_drop]; omega)]
  unfold sub_chars Range.len
  rw [List.drop_take, List.drop_drop, List.take_take]
  have e1 : fr.start + (q.start - fr.start) = q.start := by omega
  have e2 : min (q.stop - q.start) (fr.stop - fr.start - (q.start - fr.start)) =
      q.stop - q.start := by omega
  rw [e1, e2]

/-- Witness for C2 at the spec's scenario: content `" xyz"` with the
single fragment `1..4 ↦ (1,4)..(1,6)`, original source line `/// xyz`,
query `1..4`. -/
theorem find_spans_single_fragment_witness :
    scenarioChunk.find_spans ⟨1, 4⟩ = [(⟨1, 4⟩, ⟨⟨1, 4⟩, ⟨1, 6⟩⟩)] ∧
    extractFrom ⟨1, 0⟩ ("/// xyz".toList) ⟨⟨1, 4⟩, ⟨1, 6⟩⟩ = ("xyz".toList) := by
  have h := find_spans_single_fragment (" xyz".toList) ("/// ".toList) [] ("/// xyz".toList)
    [] [] ⟨1, 4⟩ ⟨⟨1, 4⟩, ⟨1, 6⟩⟩ ⟨1, 4⟩
    (by decide) (by decide) (by decide) (by decide) (by decide) (by decide)
    (by decide) (by decide)
  exact ⟨h.1, h.2⟩

/-! ## Single-line round trip (C4) -/

theorem posFrom_no_newline (s : List Char) :
    ∀ (lc : LineColumn) (k : Nat), k ≤ s.length → (∀ c ∈ s, c ≠ '\n') →
      posFrom lc s k = ⟨lc.line, lc.column + k⟩ := by
  induction s with
  | nil =>
    intro lc k hk hnl
    have hz : k = 0 := by
      simp only [List.length_nil] at hk
      omega
    subst hz
    simp [posFrom_zero]
  | cons c rest ih =>
    intro lc k hk hnl
    cases k with
    | zero =>
      simp [posFrom_zero]
    | succ k2 =>
      rw [posFrom_cons]
      rw [ih (advance lc c) k2 (by simpa using hk)
        (fun d hd => hnl d (List.mem_cons_of_mem c hd))]
      simp only [advance, if_neg (hnl c (List.mem_cons_self c rest))]
      have : lc.column + 1 + k2 = lc.column + (k2 + 1) := by omega
      rw [this]

/-- Counterexample for C4 as stated: content `abc`, a single single-line
fragment of length `n = 3` at range `0..3` with declared Span
`(1,0)..(1,3)` (the claim's `{(L,C)}..{(L,C+n)}` convention), sub-range
`[a,b) = [0,3)`.  The claim predicts the resolved Span `(1,0)..(1,3)`, but
`find_spans` produces the inclusive-end Span `(1,0)..(1,2)`: the replay
records the cursor position OF the last consumed character, not the
position after it. -/
theorem find_spans_round_trip_cex :
    CheckableChunk.find_spans
        ⟨"abc".toList, [(⟨0, 3⟩, ⟨⟨1, 0⟩, ⟨1, 3⟩⟩)]⟩ ⟨0, 3⟩ ≠
      [(⟨0, 3⟩, ⟨⟨1, 0⟩, ⟨1, 3⟩⟩)] := by
  decide

/-- Claim C4 (amended): for a single-line fragment of length `n` at range
`[f0, f0+n)` whose declared Span is `{(L,C)}..{(L,C+n)}`, every sub-range
`[a,b)` of the fragment (queried as `[f0+a, f0+b)`) resolves to the Span
`{(L,C+a)}..{(L,C+b-1)}` — the stop column is `C+b-1`, not the claim's
`C+b`, because spans carry INCLUSIVE end positions (the repository's own
tests expect, e.g., the three-character `xyz` at columns 4..6 to resolve
to `(1,4)..(1,6)`). -/
theorem find_spans_round_trip_amended (content : List Char)
    (before after : List (Range × Span)) (L C n a b f0 : Nat)
    (hfr : f0 + n ≤ content.length) (hab : a < b) (hbn : b ≤ n)
    (hnl : ∀ c ∈ sub_chars content ⟨f0, f0 + n⟩, c ≠ '\n')
    (hbef : ∀ p ∈ before, p.1.stop ≤ f0 + a)
    (haft : ∀ p ∈ after, f0 + b ≤ p.1.start) :
    CheckableChunk.find_spans
        ⟨content, before ++ (⟨f0, f0 + n⟩, ⟨⟨L, C⟩, ⟨L, C + n⟩⟩) :: after⟩
        ⟨f0 + a, f0 + b⟩ =
      [(⟨f0 + a, f0 + b⟩, ⟨⟨L, C + a⟩, ⟨L, C + b - 1⟩⟩)] := by
  rw [find_spans_single_core content before after ⟨f0, f0 + n⟩ ⟨⟨L, C⟩, ⟨L, C + n⟩⟩
    ⟨f0 + a, f0 + b⟩ (by show f0 + a < f0 + b; omega) (by show f0 ≤ f0 + a; omega)
    (by show f0 + b ≤ f0 + n; omega) (by show f0 + n ≤ content.length; omega) hbef haft]
  have hslen : (sub_chars content ⟨f0, f0 + n⟩).length = n := by
    rw [sub_chars_length content ⟨f0, f0 + n⟩ (by show f0 + n ≤ content.length; omega)]
    show f0 + n - f0 = n
    omega
  have hidx1 : (⟨f0 + a, f0 + b⟩ : Range).start - (⟨f0, f0 + n⟩ : Range).start = a := by
    show f0 + a - f0 = a
    omega
  have hidx2 : (⟨f0 + a, f0 + b⟩ : Range).stop - (⟨f0 + a, f0 + b⟩ : Range).start + a - 1 =
      b - 1 := by
    show f0 + b - (f0 + a) + a - 1 = b - 1
    omega
  rw [hidx1, hidx2]
  have hp1 : posFrom (⟨⟨L, C⟩, ⟨L, C + n⟩⟩ : Span).start (sub_chars content ⟨f0, f0 + n⟩) a =
      ⟨L, C + a⟩ :=
    posFrom_no_newline (sub_chars content ⟨f0, f0 + n⟩) ⟨L, C⟩ a (by omega) hnl
  have hp2 : posFrom (⟨⟨L, C⟩, ⟨L, C + n⟩⟩ : Span).start (sub_chars content ⟨f0, f0 + n⟩)
      (b - 1) = ⟨L, C + b - 1⟩ := by
    rw [posFrom_no_newline (sub_chars content ⟨f0, f0 + n⟩) ⟨L, C⟩ (b - 1) (by omega) hnl]
    have : C + (b - 1) = C + b - 1 := by omega
    rw [this]
  rw [hp1, hp2]

/-- Witness for C4 (amended): content `abc` fully covered by a fragment of
length `3` whose span starts at `(1,5)`; the sub-range `[1,3)` resolves to
`(1,6)..(1,7)`. -/
theorem find_spans_round_trip_amended_witness :
    (1 : Nat) < 3 ∧
    CheckableChunk.find_spans
        ⟨"abc".toList, [(⟨0, 3⟩, ⟨⟨1, 5⟩, ⟨1, 8⟩⟩)]⟩ ⟨1, 3⟩ =
      [(⟨1, 3⟩, ⟨⟨1, 6⟩, ⟨1, 7⟩⟩)] := by
  refine ⟨by omega, ?_⟩
  have h := find_spans_round_trip_amended ("abc".toList) [] [] 1 5 3 1 3 0
    (by decide) (by decide) (by decide) (by decide) (by decide) (by decide)
  exact h

end Spellcheck
